import Mathlib

/- Verification of the ObsidianToHtml markup rewriting engine
   (src/obsidian_to_html.py) against its natural-language specification.

   Documents are modelled as `List Char`.  Each concrete Python regex
   operation of the source is translated into an executable scanning
   function with the same leftmost, non-overlapping, greedy/lazy
   semantics as the fixed pattern it implements; the doc comment of each
   definition names the source lines and pattern it embeds.  Character
   classes (`\s`, `\d`) are modelled at ASCII level, which covers every
   input considered here. -/

namespace ObsidianToHtml

/-- Index of the first occurrence of `pat` as a contiguous substring of
`s` — the leftmost match position of a literal pattern, as in Python
`re` scanning. -/
def findSub (pat : List Char) : List Char → Option Nat
  | [] => if pat.isPrefixOf ([] : List Char) then some 0 else none
  | c :: rest =>
    if pat.isPrefixOf (c :: rest) then some 0 else (findSub pat rest).map (· + 1)

/-- Whether `pat` occurs as a contiguous substring of `s` (Python `in`). -/
def hasSub (pat s : List Char) : Bool := (findSub pat s).isSome

/-- The triple-backtick code-fence delimiter. -/
def fence : List Char := "```".data

/-- Translation of `re.split(r'(```.*?```)', content, flags=re.DOTALL)`
(line 158).  The pattern matches, leftmost and lazily, a fence followed by
the shortest stretch of arbitrary characters up to the next fence; the
split keeps the captured delimiters, so the result alternates non-matching
text and complete fenced blocks.  When no complete fenced block remains
the rest of the text is one final part.  Fuel bounds the recursion; every
caller passes the input length, which suffices because every delimiter
consumes at least six characters. -/
def splitFences : Nat → List Char → List (List Char)
  | 0, s => [s]
  | f + 1, s =>
    match findSub fence s with
    | none => [s]
    | some i =>
      match findSub fence ((s.drop i).drop 3) with
      | none => [s]
      | some j =>
        s.take i :: (s.drop i).take (j + 6) :: splitFences f ((s.drop i).drop (j + 6))

/-- Translation of the width extraction in `cleanup_image_link`
(lines 123-136).  The Python body runs `re.search(r'\|(\d+)$', inner)` and
`re.sub(r'\|\d+$', '', inner)`: that anchored pattern matches exactly when
the text ends in a pipe followed by a nonempty run of digits, i.e. at the
last pipe whose suffix is purely numeric, returning that run and the text
with the `|digits` tail removed. -/
def widthSuffix (inner : List Char) : Option (List Char × List Char) :=
  let r := inner.reverse
  let ds := r.takeWhile Char.isDigit
  let rest := r.drop ds.length
  if ds.isEmpty then none
  else if rest.head? = some '|' then some ((rest.drop 1).reverse, ds.reverse)
  else none

/-- Translation of `cleanup_image_link` (lines 123-136): emit
`![](path)` with a `width` attribute when a numeric pipe suffix is
present. -/
def cleanupImage (inner : List Char) : List Char :=
  match widthSuffix inner with
  | some (cleaned, w) =>
      "![](".data ++ cleaned ++ ")\x7b width=".data ++ w ++ "px \x7d".data
  | none => "![](".data ++ inner ++ ")".data

/-- Translation of `cleanup_wiki_link` (lines 142-153).
`re.search(r'\|(.+?)$', inner)` matches at the first pipe that has at
least one character after it, taking everything after that pipe as the
title; `re.sub(r'\|.+?$', '', inner)` removes the same span; with no such
pipe the target itself is reused as the title. -/
def cleanupWiki (inner : List Char) : List Char :=
  let target := inner.takeWhile (· ≠ '|')
  let rest := inner.drop target.length
  if 2 ≤ rest.length then
    "[".data ++ rest.drop 1 ++ "](".data ++ target ++ ".html)".data
  else "[".data ++ inner ++ "](".data ++ inner ++ ".html)".data

/-- Strip a leading `https://` or `http://` (the regex `https?://` with a
greedy optional `s`). -/
def schemeHttp (u : List Char) : Option (List Char) :=
  if ("https://".data).isPrefixOf u then some (u.drop 8)
  else if ("http://".data).isPrefixOf u then some (u.drop 7)
  else none

/-- Literal prefix of the first url alternative on line 178. -/
def watchPrefix : List Char := "www.youtube.com/watch?v=".data

/-- Literal prefix of the second url alternative on line 178. -/
def shortPrefix : List Char := "youtu.be/".data

/-- Shape test for the url group of the video-embed pattern on line 178:
`https?://(?:www\.youtube\.com/watch\?v=[^)]+|https?://youtu\.be/[^)]+)`,
applied to the maximal run of non-`)` characters following `](`.  Note
that the second alternative repeats the `https?://` scheme that the group
has already consumed outside the alternation — exactly as the source
regex is written. -/
def urlShapeOk (url : List Char) : Bool :=
  match schemeHttp url with
  | some u1 =>
      (watchPrefix.isPrefixOf u1 && !(u1.drop watchPrefix.length).isEmpty) ||
      (match schemeHttp u1 with
       | some u2 => shortPrefix.isPrefixOf u2 && !(u2.drop shortPrefix.length).isEmpty
       | none => false)
  | none => false

/-- Attempt to match the video-embed pattern
`!\[([^\]]*)\]\((https?://(?:...|...))\)` (line 178) at the head of `s`,
returning the alt text, the url group and the remainder after the match.
The alt text is the maximal run of non-`]` characters; the url group is
the maximal run of non-`)` characters, constrained to the literal shape
above. -/
def tryYt (s : List Char) : Option (List Char × List Char × List Char) :=
  match s with
  | c1 :: c2 :: t =>
    if c1 = '!' ∧ c2 = '[' then
      let alt := t.takeWhile (· ≠ ']')
      match t.drop alt.length with
      | d1 :: d2 :: v =>
        if d1 = ']' ∧ d2 = '(' then
          let url := v.takeWhile (· ≠ ')')
          match v.drop url.length with
          | e :: rest => if e = ')' ∧ urlShapeOk url = true then some (alt, url, rest) else none
          | [] => none
        else none
      | _ => none
    else none
  | _ => none

/-- Attempt to match the media-embed pattern `!\[\[(.*?)\]\]` (line 182)
at the head of `s`.  Without `re.DOTALL` the lazy `.*?` cannot cross a
newline, so the closing `]]` must be the first one on the same line. -/
def tryMedia (s : List Char) : Option (List Char × List Char) :=
  match s with
  | c1 :: c2 :: c3 :: t =>
    if c1 = '!' ∧ c2 = '[' ∧ c3 = '[' then
      let line := t.takeWhile (· ≠ '\n')
      match findSub ("]]".data) line with
      | some i => some (cleanupImage (line.take i), t.drop (i + 2))
      | none => none
    else none
  | _ => none

/-- Attempt to match the wiki-link pattern `\[\[(.*?)\]\]` (line 186) at
the head of `s`; same newline constraint as `tryMedia`. -/
def tryWiki (s : List Char) : Option (List Char × List Char) :=
  match s with
  | c1 :: c2 :: t =>
    if c1 = '[' ∧ c2 = '[' then
      let line := t.takeWhile (· ≠ '\n')
      match findSub ("]]".data) line with
      | some i => some (cleanupWiki (line.take i), t.drop (i + 2))
      | none => none
    else none
  | _ => none

/-- Attempt to match the highlight pattern `==(.*?)==` (line 190) at the
head of `s`, replacing with a span element; same newline constraint. -/
def tryHl (s : List Char) : Option (List Char × List Char) :=
  match s with
  | c1 :: c2 :: t =>
    if c1 = '=' ∧ c2 = '=' then
      let line := t.takeWhile (· ≠ '\n')
      match findSub ("==".data) line with
      | some i =>
        some ("<span class=\"highlight\">".data ++ line.take i ++ "</span>".data, t.drop (i + 2))
      | none => none
    else none
  | _ => none

/-- Generic leftmost, non-overlapping `re.sub` loop: at each position try
the match function; on success emit its replacement and continue after the
match, otherwise keep the character.  Fuel bounds the recursion; every
caller passes the length of the input, which suffices because every
pattern here consumes at least one character per match. -/
def scanP (m : List Char → Option (List Char × List Char)) : Nat → List Char → List Char
  | 0, s => s
  | _ + 1, [] => []
  | f + 1, c :: rest =>
    match m (c :: rest) with
    | some (rep, after) => rep ++ scanP m f after
    | none => c :: scanP m f rest

/-- One recorded video reference: placeholder token, url and alt text
(the entries of the `youtube_placeholders` dictionary, line 174, in
insertion order). -/
structure YtRef where
  ph : List Char
  url : List Char
  alt : List Char
deriving DecidableEq, Repr

/-- Placeholder token allocated for the `n`-th matched video link
(`f"YOUTUBEPLACEHOLDER_{yt_index}"`, line 172). -/
def phName (n : Nat) : List Char := "YOUTUBEPLACEHOLDER_".data ++ (Nat.repr n).data

/-- The video-extraction pass (lines 167-179): leftmost scan, shared
counter `yt_index`, recording one reference per match and replacing the
match by `[placeholder](url)` — the `!` is dropped so the link is no
longer an embed.  Returns the rewritten text, the updated counter and the
references recorded, in order. -/
def ytPass : Nat → Nat → List Char → List Char × Nat × List YtRef
  | 0, k, s => (s, k, [])
  | _ + 1, k, [] => ([], k, [])
  | f + 1, k, c :: rest =>
    match tryYt (c :: rest) with
    | some (alt, url, after) =>
      let o := ytPass f (k + 1) after
      ((('[' :: phName k) ++ (']' :: '(' :: url) ++ (')' :: o.1)), o.2.1,
        ⟨phName k, url, alt⟩ :: o.2.2)
    | none =>
      let o := ytPass f k rest
      (c :: o.1, o.2.1, o.2.2)

/-- The four rewrite substitutions applied, in source order, to one part
that lies outside the code fences (lines 167-191): video extraction, then
media embeds, then wiki links, then highlights. -/
def prosePipeline (k : Nat) (s : List Char) : List Char × Nat × List YtRef :=
  let a := ytPass s.length k s
  let b := scanP tryMedia a.1.length a.1
  let c := scanP tryWiki b.length b
  let d := scanP tryHl c.length c
  (d, a.2.1, a.2.2)

/-- Processing of one split part (lines 163-191): parts that start with a
triple backtick are left untouched, all others go through the prose
pipeline. -/
def processPart (k : Nat) (p : List Char) : List Char × Nat × List YtRef :=
  if fence.isPrefixOf p then (p, k, []) else prosePipeline k p

/-- Processing of the whole part list with the shared counter threaded
left to right, concatenating the rewritten parts (lines 163-195). -/
def modifyParts : Nat → List (List Char) → List Char × Nat × List YtRef
  | k, [] => ([], k, [])
  | k, p :: ps =>
    let a := processPart k p
    let b := modifyParts a.2.1 ps
    (a.1 ++ b.1, b.2.1, a.2.2 ++ b.2.2)

/-- Translation of `modify_content_with_regex` (lines 156-196): split on
fenced code blocks, rewrite the parts outside them with a shared
placeholder counter starting at 0, and join.  Returns the modified text
together with the recorded video references in match order. -/
def modifyContent (content : List Char) : List Char × List YtRef :=
  let r := modifyParts 0 (splitFences content.length content)
  (r.1, r.2.2)

/-! Video embed resolver (`get_youtube_embed_code`, lines 199-215) and the
front-matter exclusion check (`should_exclude_file`, lines 218-244). -/

/-- ASCII whitespace, the characters the `\s` class matches on the inputs
considered here. -/
def isSpaceC (c : Char) : Bool :=
  c = ' ' || c = '\t' || c = '\n' || c = '\r' || c = '\x0b' || c = '\x0c'

/-- Characters allowed in a url scheme (`urllib.parse.scheme_chars`). -/
def schemeChar (c : Char) : Bool := c.isAlphanum || c = '+' || c = '-' || c = '.'

/-- The fields of a parsed url that the source reads. -/
structure UrlParts where
  netloc : List Char
  path : List Char
  query : List Char
deriving Repr

/-- Modelled from `urllib.parse.urlparse`: drop a leading `scheme:` when
the text before the first colon is a nonempty run of scheme characters
starting with a letter. -/
def dropScheme (url : List Char) : List Char :=
  let pre := url.takeWhile (· ≠ ':')
  match url.drop pre.length with
  | ':' :: rest =>
    match pre with
    | [] => url
    | c0 :: _ => if c0.isAlpha && pre.all schemeChar then rest else url
  | _ => url

/-- Modelled from `urllib.parse.urlparse`: after the scheme, `//` starts
the network location, which extends to the first `/`, `?` or `#`. -/
def splitNetloc (u : List Char) : List Char × List Char :=
  match u with
  | c1 :: c2 :: rest =>
    if c1 = '/' ∧ c2 = '/' then
      let nl := rest.takeWhile (fun c => c ≠ '/' && c ≠ '?' && c ≠ '#')
      (nl, rest.drop nl.length)
    else ([], u)
  | _ => ([], u)

/-- Modelled from `urllib.parse.urlparse`: parameters after `;` in the
last path segment are split off the path. -/
def splitParams (p : List Char) : List Char :=
  if p.contains ';' then
    if p.contains '/' then
      let lastSeg := (p.reverse.takeWhile (· ≠ '/')).reverse
      let pre := p.take (p.length - lastSeg.length)
      match findSub ([';']) lastSeg with
      | some j => pre ++ lastSeg.take j
      | none => p
    else
      match findSub ([';']) p with
      | some j => p.take j
      | none => p
  else p

/-- Modelled from `urllib.parse.urlparse` restricted to the fields the
source reads: scheme stripped, `//netloc` delimited by `/`, `?` or `#`,
fragment split at the first `#`, query at the first `?` before it, and
parameters split from the last path segment. -/
def urlparseP (url : List Char) : UrlParts :=
  let u1 := dropScheme url
  let (nl, u2) := splitNetloc u1
  let u3 := u2.takeWhile (· ≠ '#')
  let path0 := u3.takeWhile (· ≠ '?')
  let query := if path0.length < u3.length then u3.drop (path0.length + 1) else []
  { netloc := nl, path := splitParams path0, query := query }

/-- Hexadecimal digit test for percent-escapes. -/
def isHexDig (c : Char) : Bool := c.isDigit || ('a' ≤ c && c ≤ 'f') || ('A' ≤ c && c ≤ 'F')

/-- Value of a hexadecimal digit. -/
def hexVal (c : Char) : Nat :=
  if c.isDigit then c.toNat - '0'.toNat
  else if 'a' ≤ c then c.toNat - 'a'.toNat + 10
  else c.toNat - 'A'.toNat + 10

/-- Modelled from `urllib.parse.unquote_plus` at byte level: `+` becomes
a space and a valid `%hh` escape one character (faithful for the ASCII
escapes the claims exercise; invalid escapes are kept verbatim).  Fuel
bounds the recursion, the input length suffices. -/
def unquotePlus : Nat → List Char → List Char
  | 0, s => s
  | _ + 1, [] => []
  | f + 1, c :: rest =>
    if c = '%' then
      match rest with
      | a :: b :: t =>
        if isHexDig a ∧ isHexDig b then Char.ofNat (16 * hexVal a + hexVal b) :: unquotePlus f t
        else '%' :: unquotePlus f rest
      | _ => '%' :: unquotePlus f rest
    else if c = '+' then ' ' :: unquotePlus f rest
    else c :: unquotePlus f rest

/-- Percent-plus decoding with the standard fuel. -/
def uqp (s : List Char) : List Char := unquotePlus s.length s

/-- Modelled from `urllib.parse.parse_qs`: split the query on `&`; keep
chunks that contain an `=` and have a nonempty raw value; decode names
and values. -/
def qsPairs (q : List Char) : List (List Char × List Char) :=
  (q.splitOn '&').filterMap fun chunk =>
    let nm := chunk.takeWhile (· ≠ '=')
    match chunk.drop nm.length with
    | '=' :: value => if value.isEmpty then none else some (uqp nm, uqp value)
    | _ => none

/-- The expression `parse_qs(parsed_url.query).get('v', [None])[0]` of
lines 207-208: the first recorded value of parameter `v`, if any. -/
def getV (q : List Char) : Option (List Char) :=
  ((qsPairs q).find? (fun pr => pr.1 == "v".data)).map (·.2)

/-- The iframe markup built on line 213. -/
def embedCode (vid : List Char) : List Char :=
  "<iframe width=\"560\" height=\"315\" src=\"https://www.youtube.com/embed/".data ++ vid ++
    "\" frameborder=\"0\" allowfullscreen></iframe>".data

/-- Translation of `get_youtube_embed_code` (lines 199-215): a netloc
containing `youtube.com` is looked up for a `v` query parameter, else a
netloc containing `youtu.be` contributes its path with leading slashes
stripped; a missing or empty id yields no embed markup. -/
def resolveEmbed (url : List Char) : Option (List Char) :=
  let p := urlparseP url
  let vid : Option (List Char) :=
    if hasSub ("youtube.com".data) p.netloc then getV p.query
    else if hasSub ("youtu.be".data) p.netloc then some (p.path.dropWhile (· = '/'))
    else none
  match vid with
  | some v => if v.isEmpty then none else some (embedCode v)
  | none => none

/-- Closing-delimiter test for the front-matter pattern of line 232: the
tail `\n---\s*\n` matches at the head of `t` exactly when `t` starts with
`\n---` and the whitespace run after it contains a newline. -/
def fmTailOk (t : List Char) : Bool :=
  ("\n---".data).isPrefixOf t && ((t.drop 4).takeWhile isSpaceC).contains '\n'

/-- Position of the earliest suffix where the closing delimiter matches —
the lazy group `(.*?)` stops at the first position whose tail matches. -/
def findTailPos : List Char → Option Nat
  | [] => if fmTailOk ([] : List Char) then some 0 else none
  | c :: rest => if fmTailOk (c :: rest) then some 0 else (findTailPos rest).map (· + 1)

/-- Translation of `re.match(r'^---\s*\n(.*?)\n---\s*\n', content,
re.DOTALL)` (line 232), including its backtracking order: the leading
`\s*` is greedy, so the newline that ends the opening delimiter is chosen
as late as possible within the leading whitespace run, and for each such
choice the lazy group stops at the earliest position whose tail matches
`\n---\s*\n`; the group content is returned. -/
def matchFrontmatter (content : List Char) : Option (List Char) :=
  if ("---".data).isPrefixOf content then
    let rest := content.drop 3
    let ws := rest.takeWhile isSpaceC
    let openers := ((List.range ws.length).filter (fun i => ws.getD i ' ' = '\n')).reverse
    openers.findSome? fun a =>
      let afterOpen := rest.drop (a + 1)
      (findTailPos afterOpen).map fun b => afterOpen.take b
  else none

/-- Case-insensitive character comparison (`re.IGNORECASE` at ASCII). -/
def lowEq (a b : Char) : Bool := a.toLower = b.toLower

/-- Strip `pat` from the head of `t`, comparing case-insensitively. -/
def stripCI (pat t : List Char) : Option (List Char) :=
  match pat, t with
  | [], _ => some t
  | _ :: _, [] => none
  | p :: ps, c :: cs => if lowEq p c then stripCI ps cs else none

/-- The alternation `(true|yes|y|on|1)` of line 241. -/
def truthyTokens : List (List Char) := ["true".data, "yes".data, "y".data, "on".data, "1".data]

/-- Tail `\s*($|\n)` of the exclusion pattern on line 241: a whitespace
run reaching the end of the text or containing a newline. -/
def truthyTailOk (u : List Char) : Bool :=
  let w := u.takeWhile isSpaceC
  (u.drop w.length).isEmpty || w.contains '\n'

/-- Attempt to match `prop\s*:\s*(true|yes|y|on|1)\s*($|\n)` with
`re.IGNORECASE` (line 241) at the head of `t`.  The configured property
name is interpolated unescaped in the source; it is modelled as a literal,
which is faithful for keys without regex metacharacters. -/
def tryProp (prop t : List Char) : Bool :=
  match stripCI prop t with
  | some t1 =>
    match t1.dropWhile isSpaceC with
    | ':' :: t3 =>
      let t4 := t3.dropWhile isSpaceC
      truthyTokens.any fun tok =>
        match stripCI tok t4 with
        | some t5 => truthyTailOk t5
        | none => false
    | _ => false
  | none => false

/-- The `re.search` of line 241: the pattern matches at some position of
the front-matter text. -/
def searchTruthy (prop fm : List Char) : Bool :=
  fm.tails.any (fun t => tryProp prop t)

/-- Translation of `should_exclude_file` (lines 218-244). -/
def shouldExcludeFile (props : List (List Char)) (content : List Char) : Bool :=
  if props.isEmpty then false
  else
    match matchFrontmatter content with
    | none => false
    | some fm => props.any (fun p => searchTruthy p fm)

/-- Specification-side reading of claim C9, following the spec's words,
for comparison with `shouldExcludeFile`: a line of the front-matter block
sets a configured exclusion key when it consists of the key itself at the
start of the line, optional whitespace, a colon, optional whitespace, and
a true-valued token (case-insensitive `true|yes|y|on|1`) ending the
line. -/
def specKeyLine (prop line : List Char) : Bool :=
  if prop.isPrefixOf line then
    match (line.drop prop.length).dropWhile isSpaceC with
    | ':' :: r2 =>
      let r3 := r2.dropWhile isSpaceC
      truthyTokens.any fun tok =>
        match stripCI tok r3 with
        | some r4 => r4.all isSpaceC
        | none => false
    | _ => false
  else false

/-- Specification-side reading of claim C9 at document level: the
document begins with a front-matter block and some configured exclusion
key is set, on its own line, to a true-valued string. -/
def specExcluded (props : List (List Char)) (content : List Char) : Bool :=
  match matchFrontmatter content with
  | none => false
  | some fm => props.any fun p => (fm.splitOn '\n').any (fun line => specKeyLine p line)

/-! Helper lemmas. -/

/-- The expected placeholder tokens for `n` consecutive matches starting
at counter value `k`. -/
def phList : Nat → Nat → List (List Char)
  | _, 0 => []
  | k, n + 1 => phName k :: phList (k + 1) n

lemma ytPass_spec : ∀ (f k : Nat) (s : List Char),
    (ytPass f k s).2.1 = k + (ytPass f k s).2.2.length ∧
      (ytPass f k s).2.2.map YtRef.ph = phList k ((ytPass f k s).2.2.length)
  | 0, k, s => by simp [ytPass, phList]
  | _ + 1, k, [] => by simp [ytPass, phList]
  | f + 1, k, c :: rest => by
    simp only [ytPass]
    cases h : tryYt (c :: rest) with
    | none =>
      have ih := ytPass_spec f k rest
      simpa using ih
    | some x =>
      obtain ⟨alt, url, after⟩ := x
      have ih := ytPass_spec f (k + 1) after
      refine ⟨?_, ?_⟩
      · simp only [List.length_cons]
        omega
      · simp only [List.map_cons, List.length_cons, phList]
        exact congrArg (phName k :: ·) ih.2

lemma processPart_spec (k : Nat) (p : List Char) :
    (processPart k p).2.1 = k + (processPart k p).2.2.length ∧
      (processPart k p).2.2.map YtRef.ph = phList k ((processPart k p).2.2.length) := by
  unfold processPart
  by_cases h : fence.isPrefixOf p
  · simp [h, phList]
  · simp only [h, if_neg, Bool.false_eq_true, prosePipeline]
    exact ytPass_spec p.length k p

lemma phList_add : ∀ (k m n : Nat), phList k (m + n) = phList k m ++ phList (k + m) n
  | k, 0, n => by simp [phList]
  | k, m + 1, n => by
    have : m + 1 + n = (m + n) + 1 := by omega
    rw [this]
    simp only [phList, List.cons_append]
    rw [phList_add (k + 1) m n]
    have h2 : k + 1 + m = k + (m + 1) := by omega
    rw [h2]

lemma modifyParts_spec : ∀ (ps : List (List Char)) (k : Nat),
    (modifyParts k ps).2.1 = k + (modifyParts k ps).2.2.length ∧
      (modifyParts k ps).2.2.map YtRef.ph = phList k ((modifyParts k ps).2.2.length)
  | [], k => by simp [modifyParts, phList]
  | p :: ps, k => by
    have hp := processPart_spec k p
    have ih := modifyParts_spec ps (processPart k p).2.1
    simp only [modifyParts]
    constructor
    · simp only [List.length_append]
      omega
    · rw [hp.1] at ih
      simp only [List.map_append, List.length_append, hp.2, ih.2, hp.1]
      rw [phList_add]

lemma sfx_cons_ext {t l : List Char} {c : Char} (h : t <:+ l) : t <:+ c :: l := by
  obtain ⟨w, hw⟩ := h
  exact ⟨c :: w, by simp [hw]⟩

lemma findSub_none_imp {pat : List Char} : ∀ {s : List Char}, findSub pat s = none →
    ∀ t, t <:+ s → pat.isPrefixOf t = false
  | [], h, t, ht => by
    rw [List.suffix_nil] at ht
    subst ht
    by_contra hb
    simp only [Bool.not_eq_false] at hb
    simp [findSub, hb] at h
  | c :: rest, h, t, ht => by
    have h1 : pat.isPrefixOf (c :: rest) = false := by
      by_contra hb
      simp only [Bool.not_eq_false] at hb
      simp [findSub, hb] at h
    have h2 : findSub pat rest = none := by
      simp only [findSub, h1, Bool.false_eq_true, if_false] at h
      exact Option.map_eq_none'.mp h
    rcases List.suffix_cons_iff.mp ht with rfl | ht'
    · exact h1
    · exact findSub_none_imp h2 t ht'

lemma findSub_none_of {pat : List Char} : ∀ {s : List Char},
    (∀ t, t <:+ s → pat.isPrefixOf t = false) → findSub pat s = none
  | [], h => by simp [findSub, h [] (List.suffix_refl _)]
  | c :: rest, h => by
    simp only [findSub, h (c :: rest) (List.suffix_refl _), Bool.false_eq_true, if_false]
    rw [findSub_none_of fun t ht => h t (sfx_cons_ext ht)]
    rfl

lemma scanP_id {m : List Char → Option (List Char × List Char)} : ∀ (f : Nat) (s : List Char),
    (∀ t, t <:+ s → m t = none) → scanP m f s = s
  | 0, _, _ => rfl
  | _ + 1, [], _ => rfl
  | f + 1, c :: rest, h => by
    simp only [scanP, h (c :: rest) (List.suffix_refl _)]
    exact congrArg (c :: ·) (scanP_id f rest fun t ht => h t (sfx_cons_ext ht))

lemma ytPass_id : ∀ (f k : Nat) (s : List Char),
    (∀ t, t <:+ s → tryYt t = none) → ytPass f k s = (s, k, [])
  | 0, _, _, _ => rfl
  | _ + 1, _, [], _ => rfl
  | f + 1, k, c :: rest, h => by
    simp only [ytPass, h (c :: rest) (List.suffix_refl _)]
    rw [ytPass_id f k rest fun t ht => h t (sfx_cons_ext ht)]

lemma splitFences_single {s : List Char} (h : findSub fence s = none) :
    ∀ f, splitFences f s = [s]
  | 0 => rfl
  | f + 1 => by simp [splitFences, h]

lemma tryYt_shape {s : List Char} {x} (h : tryYt s = some x) :
    ∃ t, s = '!' :: '[' :: t := by
  match s with
  | [] => simp [tryYt] at h
  | [c1] => simp [tryYt] at h
  | c1 :: c2 :: t =>
    by_cases hc : c1 = '!' ∧ c2 = '['
    · exact ⟨t, by rw [hc.1, hc.2]⟩
    · simp [tryYt, hc] at h

lemma tryMedia_shape {s : List Char} {x} (h : tryMedia s = some x) :
    ∃ t, s = '!' :: '[' :: '[' :: t := by
  match s with
  | [] => simp [tryMedia] at h
  | [c1] => simp [tryMedia] at h
  | [c1, c2] => simp [tryMedia] at h
  | c1 :: c2 :: c3 :: t =>
    by_cases hc : c1 = '!' ∧ c2 = '[' ∧ c3 = '['
    · exact ⟨t, by rw [hc.1, hc.2.1, hc.2.2]⟩
    · simp [tryMedia, hc] at h

lemma tryWiki_shape {s : List Char} {x} (h : tryWiki s = some x) :
    ∃ t, s = '[' :: '[' :: t := by
  match s with
  | [] => simp [tryWiki] at h
  | [c1] => simp [tryWiki] at h
  | c1 :: c2 :: t =>
    by_cases hc : c1 = '[' ∧ c2 = '['
    · exact ⟨t, by rw [hc.1, hc.2]⟩
    · simp [tryWiki, hc] at h

lemma tryHl_shape {s : List Char} {x} (h : tryHl s = some x) :
    ∃ t, s = '=' :: '=' :: t := by
  match s with
  | [] => simp [tryHl] at h
  | [c1] => simp [tryHl] at h
  | c1 :: c2 :: t =>
    by_cases hc : c1 = '=' ∧ c2 = '='
    · exact ⟨t, by rw [hc.1, hc.2]⟩
    · simp [tryHl, hc] at h

/-! Claim theorems. -/

/-- Claim C1.  The claim states that a short-form video URL such as
`https://youtu.be/abc123` inside `![alt](url)` is matched, recorded and
replaced like a `watch?v=` URL.  The code disagrees: in the pattern on
line 178 the alternation `(?:www\.youtube\.com/watch\?v=[^)]+|https?://
youtu\.be/[^)]+)` repeats the scheme `https?://` inside the `youtu.be`
alternative, although the group has already consumed it, so a well-formed
short URL can never match — only the nonsensical doubled-scheme form
does.  This theorem evaluates the rewriter at both inputs: the short URL
passes through untouched with no reference recorded, while the
doubled-scheme URL is matched and recorded. -/
theorem claim_C1_failing_eval :
    modifyContent ("![alt](https://youtu.be/abc123)".data) =
      ("![alt](https://youtu.be/abc123)".data, []) ∧
    modifyContent ("![alt](https://https://youtu.be/abc123)".data) =
      ("[YOUTUBEPLACEHOLDER_0](https://https://youtu.be/abc123)".data,
        [⟨"YOUTUBEPLACEHOLDER_0".data, "https://https://youtu.be/abc123".data, "alt".data⟩]) := by
  constructor <;> decide

/-- Claim C2, counterexample.  The claim names the placeholder tokens
`VIDEOPLACEHOLDER_<n>`; the code (line 172) allocates
`YOUTUBEPLACEHOLDER_<n>`, so the claimed output text is not produced. -/
theorem claim_C2_counterexample :
    (modifyContent ("![alt](https://www.youtube.com/watch?v=abc123)".data)).1 ≠
      "[VIDEOPLACEHOLDER_0](https://www.youtube.com/watch?v=abc123)".data := by
  decide

/-- Claim C2 as amended: with the token spelling `YOUTUBEPLACEHOLDER_<n>`
(instead of the claimed `VIDEOPLACEHOLDER_<n>`), rewriting the example
input yields the placeholder link text and exactly the one expected
reference, and in general the placeholder tokens recorded for any
document are `YOUTUBEPLACEHOLDER_0, YOUTUBEPLACEHOLDER_1, ...` numbered
from 0 in left-to-right match order across the whole document. -/
theorem claim_C2_amended :
    modifyContent ("![alt](https://www.youtube.com/watch?v=abc123)".data) =
      ("[YOUTUBEPLACEHOLDER_0](https://www.youtube.com/watch?v=abc123)".data,
        [⟨"YOUTUBEPLACEHOLDER_0".data, "https://www.youtube.com/watch?v=abc123".data,
          "alt".data⟩]) ∧
    ∀ content : List Char,
      (modifyContent content).2.map YtRef.ph = phList 0 ((modifyContent content).2.length) := by
  constructor
  · decide
  · intro content
    exact (modifyParts_spec (splitFences content.length content) 0).2

lemma modifyParts_fence_infix : ∀ (ps : List (List Char)) (k : Nat) (p : List Char),
    p ∈ ps → fence.isPrefixOf p = true → p <:+: (modifyParts k ps).1
  | [], _, _, h, _ => absurd h (List.not_mem_nil _)
  | q :: ps, k, p, h, hf => by
    simp only [modifyParts]
    rcases List.mem_cons.mp h with rfl | hmem
    · refine ⟨[], (modifyParts (processPart k p).2.1 ps).1, ?_⟩
      simp [processPart, hf]
    · obtain ⟨l, r, hl⟩ := modifyParts_fence_infix ps (processPart k q).2.1 p hmem hf
      exact ⟨(processPart k q).1 ++ l, r, by rw [List.append_assoc, List.append_assoc, ← List.append_assoc l, hl]⟩

/-- Claim C4: a part produced by the code-fence split that begins with a
triple backtick — in particular every complete fenced code block, from
its opening fence through its matching closing fence — appears
byte-identical (as a contiguous substring) in the rewriter's output,
whatever rewrite patterns its content would otherwise match. -/
theorem claim_C4 (content p : List Char)
    (hmem : p ∈ splitFences content.length content)
    (hf : fence.isPrefixOf p = true) :
    p <:+: (modifyContent content).1 :=
  modifyParts_fence_infix _ 0 p hmem hf

/-- Claim C4 witness: a fenced block whose content contains wiki-link,
media-embed and highlight markup survives rewriting verbatim. -/
theorem claim_C4_witness :
    ("```a [[x]] ![[y|3]] ==z== ```".data) <:+:
      (modifyContent ("pre [[w]] ```a [[x]] ![[y|3]] ==z== ``` post ==h==".data)).1 :=
  claim_C4 _ _ (by decide) (by decide)

/-- Claim C5: on an input with no code fence, no wiki-link or media-embed
opener, no highlight delimiter and no video-shaped embed (no position at
which the video pattern matches), the rewriter is the identity and
records no video references. -/
theorem claim_C5 (content : List Char)
    (hfence : findSub fence content = none)
    (hwiki : findSub ("[[".data) content = none)
    (hmedia : findSub ("![[".data) content = none)
    (hhl : findSub ("==".data) content = none)
    (hyt : content.tails.all (fun t => (tryYt t).isNone) = true) :
    modifyContent content = (content, []) := by
  have hyt' : ∀ t, t <:+ content → tryYt t = none := by
    intro t ht
    have := List.all_eq_true.mp hyt t ((List.mem_tails _ _).mpr ht)
    exact Option.isNone_iff_eq_none.mp this
  have hnofence : fence.isPrefixOf content = false :=
    findSub_none_imp hfence content (List.suffix_refl _)
  have hmedia' : ∀ t, t <:+ content → tryMedia t = none := by
    intro t ht
    cases hm : tryMedia t with
    | none => rfl
    | some x =>
      obtain ⟨u, rfl⟩ := tryMedia_shape hm
      have := findSub_none_imp hmedia _ ht
      simp [List.isPrefixOf] at this
  have hwiki' : ∀ t, t <:+ content → tryWiki t = none := by
    intro t ht
    cases hm : tryWiki t with
    | none => rfl
    | some x =>
      obtain ⟨u, rfl⟩ := tryWiki_shape hm
      have := findSub_none_imp hwiki _ ht
      simp [List.isPrefixOf] at this
  have hhl' : ∀ t, t <:+ content → tryHl t = none := by
    intro t ht
    cases hm : tryHl t with
    | none => rfl
    | some x =>
      obtain ⟨u, rfl⟩ := tryHl_shape hm
      have := findSub_none_imp hhl _ ht
      simp [List.isPrefixOf] at this
  rw [modifyContent, splitFences_single hfence]
  simp only [modifyParts, processPart, hnofence, Bool.false_eq_true, if_false, prosePipeline]
  rw [ytPass_id _ 0 content hyt']
  simp only
  rw [scanP_id _ content hmedia', scanP_id _ content hwiki', scanP_id _ content hhl']
  simp [modifyParts]

/-- Claim C5 witness: a plain prose document is returned unchanged with
no references. -/
theorem claim_C5_witness :
    modifyContent ("Just some plain prose.\nWith [single] brackets, = signs and a ` tick.\n".data) =
      ("Just some plain prose.\nWith [single] brackets, = signs and a ` tick.\n".data, []) :=
  claim_C5 _ (by decide) (by decide) (by decide) (by decide) (by decide)

lemma isPrefixOf_false_of_head (c0 : Char) {pat : List Char} {c : Char} {w : List Char}
    (hp : pat.head? = some c0) (hc : c0 ≠ c) : pat.isPrefixOf (c :: w) = false := by
  cases pat with
  | nil => simp at hp
  | cons p ps =>
    have hp' : p = c0 := by simpa using hp
    subst hp'
    simp [List.isPrefixOf, hc]

/-- Number of triple-backtick fence delimiters in a text: non-overlapping
occurrences counted left to right, the way the split pattern consumes
them.  Fuel bounds the recursion; the input length suffices. -/
def countFences : Nat → List Char → Nat
  | 0, _ => 0
  | f + 1, s =>
    match findSub fence s with
    | none => 0
    | some i => 1 + countFences f ((s.drop i).drop 3)

lemma findSub_le {pat : List Char} : ∀ {s : List Char} {i : Nat},
    findSub pat s = some i → pat <+: s.drop i
  | [], i, h => by
    by_cases hp : pat.isPrefixOf ([] : List Char) = true
    · simp only [findSub, hp, if_true, Option.some.injEq] at h
      subst h
      exact List.isPrefixOf_iff_prefix.mp hp
    · simp [findSub, hp] at h
  | c :: rest, i, h => by
    by_cases hp : pat.isPrefixOf (c :: rest) = true
    · simp only [findSub, hp, if_true, Option.some.injEq] at h
      subst h
      exact List.isPrefixOf_iff_prefix.mp hp
    · simp only [findSub, hp, Bool.false_eq_true, if_false] at h
      obtain ⟨i2, hi2, rfl⟩ := Option.map_eq_some'.mp h
      have hrec : pat <+: rest.drop i2 := findSub_le hi2
      exact hrec

lemma findSub_fence_bound {s : List Char} {i : Nat} (h : findSub fence s = some i) :
    i + 3 ≤ s.length := by
  have hp := findSub_le h
  have hl := hp.length_le
  have h3 : fence.length = 3 := by decide
  rw [h3, List.length_drop] at hl
  omega

lemma countFences_nil : ∀ g, countFences g ([] : List Char) = 0
  | 0 => rfl
  | g + 1 => by
    have h : findSub fence ([] : List Char) = none := by decide
    simp [countFences, h]

lemma splitFences_nil : ∀ g, splitFences g ([] : List Char) = [[]]
  | 0 => rfl
  | g + 1 => by
    have h : findSub fence ([] : List Char) = none := by decide
    simp [splitFences, h]

lemma countFences_none {s : List Char} (h : findSub fence s = none) :
    ∀ g, countFences g s = 0
  | 0 => rfl
  | g + 1 => by simp [countFences, h]

lemma countFences_succ_some {f i : Nat} {s : List Char} (h : findSub fence s = some i) :
    countFences (f + 1) s = 1 + countFences f ((s.drop i).drop 3) := by
  simp [countFences, h]

lemma splitFences_succ_none {f : Nat} {s : List Char} (h : findSub fence s = none) :
    splitFences (f + 1) s = [s] := by
  simp [splitFences, h]

lemma splitFences_succ_single {f i : Nat} {s : List Char} (h1 : findSub fence s = some i)
    (h2 : findSub fence ((s.drop i).drop 3) = none) : splitFences (f + 1) s = [s] := by
  have h3 : findSub fence (s.drop (i + 3)) = none := by
    rw [List.drop_drop] at h2
    exact h2
  simp [splitFences, h1, h3]

lemma splitFences_succ_pair {f i j : Nat} {s : List Char} (h1 : findSub fence s = some i)
    (h2 : findSub fence ((s.drop i).drop 3) = some j) :
    splitFences (f + 1) s =
      s.take i :: (s.drop i).take (j + 6) :: splitFences f ((s.drop i).drop (j + 6)) := by
  have h3 : findSub fence (s.drop (i + 3)) = some j := by
    rw [List.drop_drop] at h2
    exact h2
  simp [splitFences, h1, h3]

lemma countFences_fuel : ∀ (f f2 : Nat) (s : List Char), s.length ≤ f → s.length ≤ f2 →
    countFences f s = countFences f2 s
  | 0, f2, s, hf, _ => by
    have hs : s = [] := List.length_eq_zero.mp (Nat.le_zero.mp hf)
    subst hs
    rw [countFences_nil, countFences_nil]
  | f + 1, f2, s, hf, hf2 => by
    cases f2 with
    | zero =>
      have hs : s = [] := List.length_eq_zero.mp (Nat.le_zero.mp hf2)
      subst hs
      rw [countFences_nil, countFences_nil]
    | succ f3 =>
      cases h : findSub fence s with
      | none => rw [countFences_none h, countFences_none h]
      | some i =>
        rw [countFences_succ_some h, countFences_succ_some h]
        have hb := findSub_fence_bound h
        have hlen : ((s.drop i).drop 3).length = s.length - (i + 3) := by simp
        rw [countFences_fuel f f3 ((s.drop i).drop 3) (by omega) (by omega)]

lemma splitFences_fuel : ∀ (f f2 : Nat) (s : List Char), s.length ≤ f → s.length ≤ f2 →
    splitFences f s = splitFences f2 s
  | 0, f2, s, hf, _ => by
    have hs : s = [] := List.length_eq_zero.mp (Nat.le_zero.mp hf)
    subst hs
    rw [splitFences_nil, splitFences_nil]
  | f + 1, f2, s, hf, hf2 => by
    cases f2 with
    | zero =>
      have hs : s = [] := List.length_eq_zero.mp (Nat.le_zero.mp hf2)
      subst hs
      rw [splitFences_nil, splitFences_nil]
    | succ f3 =>
      cases h1 : findSub fence s with
      | none => rw [splitFences_succ_none h1, splitFences_succ_none h1]
      | some i =>
        cases h2 : findSub fence ((s.drop i).drop 3) with
        | none => rw [splitFences_succ_single h1 h2, splitFences_succ_single h1 h2]
        | some j =>
          rw [splitFences_succ_pair h1 h2, splitFences_succ_pair h1 h2]
          have hb1 := findSub_fence_bound h1
          have hb2 := findSub_fence_bound h2
          have hl2 : ((s.drop i).drop 3).length = s.length - (i + 3) := by simp
          have hlr : ((s.drop i).drop (j + 6)).length = s.length - (i + (j + 6)) := by simp
          rw [splitFences_fuel f f3 ((s.drop i).drop (j + 6)) (by omega) (by omega)]

/-- Structure of the split for a document with an odd number of fence
delimiters: the parts end in a trailing segment that still contains a
fence delimiter (the unmatched one), the parts concatenate back to the
document, and the segments before it pair the remaining delimiters. -/
lemma split_odd_struct : ∀ (f : Nat) (s : List Char), s.length ≤ f →
    countFences s.length s % 2 = 1 →
    ∃ ps last, splitFences s.length s = ps ++ [last] ∧
      ps.flatten ++ last = s ∧ hasSub fence last = true
  | 0, s, hf, hodd => by
    have hs : s = [] := List.length_eq_zero.mp (Nat.le_zero.mp hf)
    subst hs
    rw [countFences_nil] at hodd
    omega
  | f + 1, s, hf, hodd => by
    cases h1 : findSub fence s with
    | none =>
      rw [countFences_none h1] at hodd
      omega
    | some i =>
      have hb1 := findSub_fence_bound h1
      have hpos : s.length = (s.length - 1) + 1 := by omega
      cases h2 : findSub fence ((s.drop i).drop 3) with
      | none =>
        refine ⟨[], s, ?_, by simp, ?_⟩
        · rw [hpos, splitFences_succ_single h1 h2]
          rfl
        · simp [hasSub, h1]
      | some j =>
        have hb2 := findSub_fence_bound h2
        have hl2 : ((s.drop i).drop 3).length = s.length - (i + 3) := by simp
        have hlr : ((s.drop i).drop (j + 6)).length = s.length - (i + (j + 6)) := by simp
        have hcount : countFences s.length s =
            2 + countFences ((s.drop i).drop (j + 6)).length ((s.drop i).drop (j + 6)) := by
          rw [hpos, countFences_succ_some h1]
          rw [countFences_fuel (s.length - 1) ((s.drop i).drop 3).length ((s.drop i).drop 3)
            (by omega) (le_refl _)]
          have hpos2 : ((s.drop i).drop 3).length = (((s.drop i).drop 3).length - 1) + 1 := by
            omega
          rw [hpos2, countFences_succ_some h2]
          have hdd : (((s.drop i).drop 3).drop j).drop 3 = (s.drop i).drop (j + 6) := by
            rw [List.drop_drop, List.drop_drop]
            congr 1
            omega
          rw [hdd]
          rw [countFences_fuel (((s.drop i).drop 3).length - 1)
            ((s.drop i).drop (j + 6)).length ((s.drop i).drop (j + 6)) (by omega) (le_refl _)]
          omega
        have hodd2 : countFences ((s.drop i).drop (j + 6)).length ((s.drop i).drop (j + 6)) % 2
            = 1 := by omega
        have hrf : ((s.drop i).drop (j + 6)).length ≤ f := by omega
        obtain ⟨ps2, last, hsp, hjoin, hlast⟩ :=
          split_odd_struct f ((s.drop i).drop (j + 6)) hrf hodd2
        refine ⟨s.take i :: (s.drop i).take (j + 6) :: ps2, last, ?_, ?_, hlast⟩
        · rw [hpos, splitFences_succ_pair h1 h2]
          rw [splitFences_fuel (s.length - 1) ((s.drop i).drop (j + 6)).length
            ((s.drop i).drop (j + 6)) (by omega) (le_refl _)]
          rw [hsp]
          rfl
        · simp only [List.flatten_cons, List.append_assoc]
          rw [hjoin, List.take_append_drop, List.take_append_drop]

lemma modifyParts_append_single : ∀ (ps : List (List Char)) (k : Nat) (last : List Char),
    modifyParts k (ps ++ [last]) =
      ((modifyParts k ps).1 ++ (processPart (modifyParts k ps).2.1 last).1,
       (processPart (modifyParts k ps).2.1 last).2.1,
       (modifyParts k ps).2.2 ++ (processPart (modifyParts k ps).2.1 last).2.2)
  | [], k, last => by
    simp [modifyParts]
  | p :: ps, k, last => by
    simp only [List.cons_append, List.append_eq, modifyParts]
    rw [modifyParts_append_single ps (processPart k p).2.1 last]
    simp [List.append_assoc]

/-- Claim C3, counterexample.  The document \x60\x60\x60[[x]] contains an
odd number (one) of fence delimiters, so per the claim its trailing
content should be treated as Prose with all rewrite rules applied; but
the split leaves the whole text as one part that begins with a triple
backtick, so the loop on line 165 skips it and the wiki link inside it is
not rewritten, although the prose pipeline would have rewritten it. -/
theorem claim_C3_counterexample :
    findSub fence ("```[[x]]".data) = some 0 ∧
    findSub fence (("```[[x]]".data).drop 3) = none ∧
    modifyContent ("```[[x]]".data) = ("```[[x]]".data, []) ∧
    (prosePipeline 0 ("```[[x]]".data)).1 = "```[x](x.html)".data := by
  refine ⟨by decide, by decide, by decide, by decide⟩

/-- Claim C3 as amended: for every document text containing an odd number
of triple-backtick fence delimiters, the final split leaves a trailing
segment that contains the unterminated fence content and runs to the end
of the text (the parts concatenate back to the document).  That trailing
segment is treated as Prose — all rewrite rules are applied to it, with
the placeholder counter carried over from the earlier segments — unless
the segment itself begins with the triple-backtick delimiter, in which
case the startswith check on line 165 classifies it as a code block and
it is passed through unchanged, contributing no references. -/
theorem claim_C3_amended (content : List Char)
    (hodd : countFences content.length content % 2 = 1) :
    ∃ ps last, splitFences content.length content = ps ++ [last] ∧
      ps.flatten ++ last = content ∧
      hasSub fence last = true ∧
      (fence.isPrefixOf last = false →
        modifyContent content =
          ((modifyParts 0 ps).1 ++ (prosePipeline (modifyParts 0 ps).2.1 last).1,
           (modifyParts 0 ps).2.2 ++ (prosePipeline (modifyParts 0 ps).2.1 last).2.2)) ∧
      (fence.isPrefixOf last = true →
        modifyContent content = ((modifyParts 0 ps).1 ++ last, (modifyParts 0 ps).2.2)) := by
  obtain ⟨ps, last, hsp, hjoin, hlast⟩ :=
    split_odd_struct content.length content (le_refl _) hodd
  refine ⟨ps, last, hsp, hjoin, hlast, ?_, ?_⟩
  · intro hnp
    simp only [modifyContent, hsp, modifyParts_append_single]
    simp [processPart, hnp]
  · intro hp
    simp only [modifyContent, hsp, modifyParts_append_single]
    simp [processPart, hp]

/-- Claim C3 witness: the amended claim applied to a document with three
fence delimiters, of which the last is unmatched; its trailing segment
does not begin with a fence, and indeed the wiki link after the unmatched
fence is rewritten. -/
theorem claim_C3_witness :
    (∃ ps last,
      splitFences ("```a``` x ```[[y]]".data).length ("```a``` x ```[[y]]".data) =
        ps ++ [last] ∧
      ps.flatten ++ last = "```a``` x ```[[y]]".data ∧
      hasSub fence last = true ∧
      (fence.isPrefixOf last = false →
        modifyContent ("```a``` x ```[[y]]".data) =
          ((modifyParts 0 ps).1 ++ (prosePipeline (modifyParts 0 ps).2.1 last).1,
           (modifyParts 0 ps).2.2 ++ (prosePipeline (modifyParts 0 ps).2.1 last).2.2)) ∧
      (fence.isPrefixOf last = true →
        modifyContent ("```a``` x ```[[y]]".data) =
          ((modifyParts 0 ps).1 ++ last, (modifyParts 0 ps).2.2))) ∧
    modifyContent ("```a``` x ```[[y]]".data) = ("```a``` x ```[y](y.html)".data, []) :=
  ⟨claim_C3_amended ("```a``` x ```[[y]]".data) (by decide), by decide⟩

lemma tw_append_stop {p : Char → Bool} : ∀ {l : List Char} {x : Char} (z : List Char),
    (∀ c ∈ l, p c = true) → p x = false → (l ++ x :: z).takeWhile p = l
  | [], x, z, _, hx => by simp [List.takeWhile_cons, hx]
  | c :: l, x, z, hall, hx => by
    have hc := hall c (List.mem_cons_self c l)
    simp only [List.cons_append, List.takeWhile_cons, hc, if_true]
    rw [tw_append_stop z (fun d hd => hall d (List.mem_cons_of_mem c hd)) hx]

lemma dw_append_stop {p : Char → Bool} : ∀ {l : List Char} {x : Char} (z : List Char),
    (∀ c ∈ l, p c = true) → p x = false → (l ++ x :: z).dropWhile p = x :: z
  | [], x, z, _, hx => by simp [List.dropWhile_cons, hx]
  | c :: l, x, z, hall, hx => by
    have hc := hall c (List.mem_cons_self c l)
    simp only [List.cons_append, List.dropWhile_cons, hc, if_true]
    exact dw_append_stop z (fun d hd => hall d (List.mem_cons_of_mem c hd)) hx

lemma tw_append_ne {p : Char → Bool} : ∀ {l : List Char} (z : List Char),
    l.dropWhile p ≠ [] → (l ++ z).takeWhile p = l.takeWhile p
  | [], _, h => absurd rfl h
  | c :: l, z, h => by
    cases hc : p c with
    | false => simp [List.takeWhile_cons, hc]
    | true =>
      simp only [List.dropWhile_cons, hc, if_true] at h
      simp only [List.cons_append, List.takeWhile_cons, hc, if_true]
      rw [tw_append_ne z h]

lemma dw_append_ne {p : Char → Bool} : ∀ {l : List Char} (z : List Char),
    l.dropWhile p ≠ [] → (l ++ z).dropWhile p = l.dropWhile p ++ z
  | [], _, h => absurd rfl h
  | c :: l, z, h => by
    cases hc : p c with
    | false => simp [List.dropWhile_cons, hc]
    | true =>
      simp only [List.dropWhile_cons, hc, if_true] at h
      simp only [List.cons_append, List.dropWhile_cons, hc, if_true]
      exact dw_append_ne z h

lemma dw_head_false {p : Char → Bool} : ∀ {l : List Char} {c : Char} {w : List Char},
    l.dropWhile p = c :: w → p c = false
  | [], c, w, h => by simp at h
  | a :: l, c, w, h => by
    cases ha : p a with
    | true =>
      simp only [List.dropWhile_cons, ha, if_true] at h
      exact dw_head_false h
    | false =>
      simp only [List.dropWhile_cons, ha, Bool.false_eq_true, if_false, List.cons.injEq] at h
      rw [← h.1]
      exact ha

lemma dw_mem {p : Char → Bool} {l : List Char} {c : Char} (h : c ∈ l.dropWhile p) : c ∈ l := by
  have := List.takeWhile_append_dropWhile p l
  rw [← this]
  exact List.mem_append_right _ h

lemma drop_tw_length {p : Char → Bool} : ∀ (l : List Char),
    l.drop (l.takeWhile p).length = l.dropWhile p
  | [] => rfl
  | c :: l => by
    cases hc : p c with
    | true => simp [List.takeWhile_cons, List.dropWhile_cons, hc, drop_tw_length l]
    | false => simp [List.takeWhile_cons, List.dropWhile_cons, hc]

lemma rev_pipe_append (path w : List Char) :
    (path ++ '|' :: w).reverse = w.reverse ++ '|' :: path.reverse := by
  rw [List.reverse_append, List.reverse_cons, List.append_assoc, List.singleton_append]

lemma widthSuffix_digits {path w : List Char} (hw : w ≠ []) (hd : w.all Char.isDigit = true) :
    widthSuffix (path ++ '|' :: w) = some (path, w) := by
  have hall : ∀ c ∈ w.reverse, Char.isDigit c = true := fun c hc =>
    List.all_eq_true.mp hd c (List.mem_reverse.mp hc)
  have hpw : Char.isDigit '|' = false := by decide
  have hne : w.reverse.isEmpty = false := by
    cases hwr : w.reverse with
    | nil => exact absurd (by simpa using congrArg List.reverse hwr) hw
    | cons a t => rfl
  simp only [widthSuffix, rev_pipe_append, tw_append_stop _ hall hpw, hne,
    Bool.false_eq_true, if_false, List.drop_left]
  simp [List.reverse_reverse]

lemma widthSuffix_nondigit {p s : List Char} (hpipe : '|' ∉ s)
    (hnd : s.all Char.isDigit = false) : widthSuffix (p ++ '|' :: s) = none := by
  have hex : s.reverse.dropWhile Char.isDigit ≠ [] := by
    rw [Ne, List.dropWhile_eq_nil_iff]
    intro hall
    rw [← Bool.not_eq_true, List.all_eq_true] at hnd
    exact hnd fun x hx => hall x (List.mem_reverse.mpr hx)
  simp only [widthSuffix, rev_pipe_append]
  rw [tw_append_ne _ hex]
  by_cases hds : (s.reverse.takeWhile Char.isDigit).isEmpty
  · simp [hds]
  · simp only [Bool.not_eq_true] at hds
    simp only [hds, Bool.false_eq_true, if_false]
    have hlen : (s.reverse.takeWhile Char.isDigit).length ≤ s.reverse.length :=
      List.Sublist.length_le (List.takeWhile_sublist _)
    rw [List.drop_append_of_le_length hlen, drop_tw_length]
    obtain ⟨c, w, hcw⟩ : ∃ c w, s.reverse.dropWhile Char.isDigit = c :: w := by
      cases hx : s.reverse.dropWhile Char.isDigit with
      | nil => exact absurd hx hex
      | cons c w => exact ⟨c, w, rfl⟩
    have hcne : c ≠ '|' := by
      intro hc
      refine hpipe ?_
      rw [← hc]
      exact List.mem_reverse.mp (dw_mem (hcw ▸ List.mem_cons_self c w))
    simp [hcw, hcne]

lemma widthSuffix_no_pipe {inner : List Char} (h : '|' ∉ inner) : widthSuffix inner = none := by
  by_cases hds : (inner.reverse.takeWhile Char.isDigit).isEmpty
  · simp [widthSuffix, hds]
  · simp only [Bool.not_eq_true] at hds
    simp only [widthSuffix, hds, Bool.false_eq_true, if_false]
    rw [drop_tw_length]
    cases hx : inner.reverse.dropWhile Char.isDigit with
    | nil => simp
    | cons c w =>
      have hcne : c ≠ '|' := by
        intro hc
        refine h ?_
        rw [← hc]
        exact List.mem_reverse.mp (dw_mem (hx ▸ List.mem_cons_self c w))
      simp [hcne]

lemma scanP_nil {m : List Char → Option (List Char × List Char)} : ∀ f, scanP m f [] = []
  | 0 => rfl
  | _ + 1 => rfl

lemma scanP_head_match {m : List Char → Option (List Char × List Char)} {c : Char}
    {cs rep : List Char} (h : m (c :: cs) = some (rep, [])) :
    ∀ f, scanP m (f + 1) (c :: cs) = rep := by
  intro f
  simp [scanP, h, scanP_nil]

lemma cleanupWiki_title {t ttl : List Char} (hp : '|' ∉ t) (hne : ttl ≠ []) :
    cleanupWiki (t ++ '|' :: ttl) = "[".data ++ ttl ++ "](".data ++ t ++ ".html)".data := by
  have hall : ∀ c ∈ t, (decide (c ≠ '|')) = true := fun c hc => by
    simp only [decide_eq_true_eq]
    exact fun h => hp (h ▸ hc)
  have hx : (decide (('|' : Char) ≠ '|')) = false := by decide
  simp only [cleanupWiki]
  rw [tw_append_stop _ hall hx, List.drop_left]
  have h2 : 2 ≤ ('|' :: ttl).length := by
    cases ttl with
    | nil => exact absurd rfl hne
    | cons a l => simp only [List.length_cons]; omega
  rw [if_pos h2]
  simp

lemma cleanupWiki_plain {inner : List Char} (hp : '|' ∉ inner) :
    cleanupWiki inner = "[".data ++ inner ++ "](".data ++ inner ++ ".html)".data := by
  have htw : inner.takeWhile (· ≠ '|') = inner := by
    rw [List.takeWhile_eq_self_iff]
    intro x hx
    simp only [decide_eq_true_eq]
    exact fun h => hp (h ▸ hx)
  simp only [cleanupWiki, htw, List.drop_length]
  rw [if_neg (by simp)]

/-- Claim C6: behaviour of the media-embed rewrite `![[inner]]`.
First: a purely numeric pipe suffix is stripped and becomes a width
attribute.  Second: a non-numeric trailing suffix after the last pipe is
kept as part of the path with nothing stripped.  Third: with no pipe at
all the path is emitted unchanged.  Fourth: the media pass rewrites a
matched embed `![[inner]]` (inner on one line, first `]]` closing it) to
exactly `cleanup_image_link`'s output. -/
theorem claim_C6 :
    (∀ path w : List Char, w ≠ [] → w.all Char.isDigit = true →
      cleanupImage (path ++ '|' :: w) =
        "![](".data ++ path ++ ")\x7b width=".data ++ w ++ "px \x7d".data) ∧
    (∀ p s : List Char, '|' ∉ s → s.all Char.isDigit = false →
      cleanupImage (p ++ '|' :: s) = "![](".data ++ (p ++ '|' :: s) ++ ")".data) ∧
    (∀ inner : List Char, '|' ∉ inner →
      cleanupImage inner = "![](".data ++ inner ++ ")".data) ∧
    (∀ inner : List Char, '\n' ∉ inner →
      findSub ("]]".data) (inner ++ "]]".data) = some inner.length →
      scanP tryMedia ("![[".data ++ inner ++ "]]".data).length
          ("![[".data ++ inner ++ "]]".data) = cleanupImage inner) := by
  refine ⟨?_, ?_, ?_, ?_⟩
  · intro path w hw hd
    simp [cleanupImage, widthSuffix_digits hw hd]
  · intro p s hpipe hnd
    simp [cleanupImage, widthSuffix_nondigit hpipe hnd]
  · intro inner h
    simp [cleanupImage, widthSuffix_no_pipe h]
  · intro inner hnl hfind
    have hs : ("![[".data ++ inner ++ "]]".data) = '!' :: '[' :: '[' :: (inner ++ "]]".data) := rfl
    have l3 : ("![[".data).length = 3 := by decide
    have l2 : ("]]".data).length = 2 := by decide
    have hlen : ("![[".data ++ inner ++ "]]".data).length = (inner.length + 4) + 1 := by
      simp only [List.length_append, l3, l2]
      omega
    have hline : (inner ++ "]]".data).takeWhile (· ≠ '\n') = inner ++ "]]".data := by
      rw [List.takeWhile_eq_self_iff]
      intro x hx
      simp only [decide_eq_true_eq]
      rcases List.mem_append.mp hx with hx1 | hx2
      · exact fun h => hnl (h ▸ hx1)
      · have hxe : x = ']' := by
          have e : ("]]".data : List Char) = [']', ']'] := rfl
          rw [e] at hx2
          simpa using hx2
        rw [hxe]
        decide
    have hdrop : (inner ++ "]]".data).drop (inner.length + 2) = [] := by
      have he : inner.length + 2 = (inner ++ "]]".data).length := by
        simp only [List.length_append, l2]
      rw [he, List.drop_length]
    have e2 : ("]]".data : List Char) = [']', ']'] := rfl
    simp only [ne_eq, decide_not, e2] at hline hfind hdrop
    have hm : tryMedia ('!' :: '[' :: '[' :: (inner ++ [']', ']'])) =
        some (cleanupImage inner, []) := by
      simp [tryMedia, hline, hfind, hdrop, List.take_left]
    rw [e2] at hs
    rw [hlen, hs]
    exact scanP_head_match hm _

/-- Claim C6 witness: the four parts of `claim_C6` evaluated at
`img.png|450`, `a|x2`, `b.png`, and the embed `![[img.png|450]]`. -/
theorem claim_C6_witness :
    cleanupImage ("img.png".data ++ '|' :: "450".data) =
      "![](".data ++ "img.png".data ++ ")\x7b width=".data ++ "450".data ++ "px \x7d".data ∧
    cleanupImage ("a".data ++ '|' :: "x2".data) =
      "![](".data ++ ("a".data ++ '|' :: "x2".data) ++ ")".data ∧
    cleanupImage ("b.png".data) = "![](".data ++ "b.png".data ++ ")".data ∧
    scanP tryMedia ("![[".data ++ "img.png|450".data ++ "]]".data).length
        ("![[".data ++ "img.png|450".data ++ "]]".data) = cleanupImage ("img.png|450".data) :=
  ⟨claim_C6.1 _ _ (by decide) (by decide), claim_C6.2.1 _ _ (by decide) (by decide),
   claim_C6.2.2.1 _ (by decide), claim_C6.2.2.2 _ (by decide) (by decide)⟩

/-- Claim C7: behaviour of the wiki-link rewrite `[[inner]]`.  First:
with a pipe-delimited nonempty title, the output is the title linked to
the target (the part before the first pipe) with `.html` appended; no
existence check constrains the target.  Second: with no pipe the target
itself is reused as the visible text.  Third: the wiki pass rewrites a
matched link `[[inner]]` to exactly `cleanup_wiki_link`'s output. -/
theorem claim_C7 :
    (∀ t ttl : List Char, '|' ∉ t → ttl ≠ [] →
      cleanupWiki (t ++ '|' :: ttl) = "[".data ++ ttl ++ "](".data ++ t ++ ".html)".data) ∧
    (∀ inner : List Char, '|' ∉ inner →
      cleanupWiki inner = "[".data ++ inner ++ "](".data ++ inner ++ ".html)".data) ∧
    (∀ inner : List Char, '\n' ∉ inner →
      findSub ("]]".data) (inner ++ "]]".data) = some inner.length →
      scanP tryWiki ("[[".data ++ inner ++ "]]".data).length
          ("[[".data ++ inner ++ "]]".data) = cleanupWiki inner) := by
  refine ⟨fun t ttl hp hne => cleanupWiki_title hp hne,
          fun inner hp => cleanupWiki_plain hp, ?_⟩
  intro inner hnl hfind
  have hs : ("[[".data ++ inner ++ "]]".data) = '[' :: '[' :: (inner ++ "]]".data) := rfl
  have l2 : ("]]".data).length = 2 := by decide
  have hlen : ("[[".data ++ inner ++ "]]".data).length = (inner.length + 3) + 1 := by
    have l2' : ("[[".data).length = 2 := by decide
    simp only [List.length_append, l2, l2']
    omega
  have hline : (inner ++ "]]".data).takeWhile (· ≠ '\n') = inner ++ "]]".data := by
    rw [List.takeWhile_eq_self_iff]
    intro x hx
    simp only [decide_eq_true_eq]
    rcases List.mem_append.mp hx with hx1 | hx2
    · exact fun h => hnl (h ▸ hx1)
    · have hxe : x = ']' := by
        have e : ("]]".data : List Char) = [']', ']'] := rfl
        rw [e] at hx2
        simpa using hx2
      rw [hxe]
      decide
  have hdrop : (inner ++ "]]".data).drop (inner.length + 2) = [] := by
    have he : inner.length + 2 = (inner ++ "]]".data).length := by
      simp only [List.length_append, l2]
    rw [he, List.drop_length]
  have e2 : ("]]".data : List Char) = [']', ']'] := rfl
  simp only [ne_eq, decide_not, e2] at hline hfind hdrop
  have hm : tryWiki ('[' :: '[' :: (inner ++ [']', ']'])) = some (cleanupWiki inner, []) := by
    simp [tryWiki, hline, hfind, hdrop, List.take_left]
  rw [e2] at hs
  rw [hlen, hs]
  exact scanP_head_match hm _

/-- Claim C7 witness: the three parts of `claim_C7` evaluated at
`Notes/Doc|My Title`, `Doc`, and the link `[[Notes/Doc|My Title]]`. -/
theorem claim_C7_witness :
    cleanupWiki ("Notes/Doc".data ++ '|' :: "My Title".data) =
      "[".data ++ "My Title".data ++ "](".data ++ "Notes/Doc".data ++ ".html)".data ∧
    cleanupWiki ("Doc".data) = "[".data ++ "Doc".data ++ "](".data ++ "Doc".data ++ ".html)".data ∧
    scanP tryWiki ("[[".data ++ "Notes/Doc|My Title".data ++ "]]".data).length
        ("[[".data ++ "Notes/Doc|My Title".data ++ "]]".data) =
      cleanupWiki ("Notes/Doc|My Title".data) :=
  ⟨claim_C7.1 _ _ (by decide) (by decide), claim_C7.2.1 _ (by decide),
   claim_C7.2.2 _ (by decide) (by decide)⟩

lemma scanP_skip {m : List Char → Option (List Char × List Char)} :
    ∀ (pre : List Char) (f : Nat) (rest : List Char),
    (∀ t, t <:+ pre ++ rest → rest.length < t.length → m t = none) →
    scanP m (pre.length + f) (pre ++ rest) = pre ++ scanP m f rest
  | [], f, rest, _ => by simp
  | c :: pre, f, rest, h => by
    have h0 : m (c :: (pre ++ rest)) = none := by
      refine h _ (List.suffix_refl _) ?_
      simp only [List.length_cons, List.length_append]
      omega
    have hstep : (c :: pre).length + f = (pre.length + f) + 1 := by
      simp only [List.length_cons]
      omega
    rw [hstep]
    show scanP m ((pre.length + f) + 1) (c :: (pre ++ rest)) = _
    simp only [scanP, h0]
    rw [scanP_skip pre f rest fun t ht hl => h t (sfx_cons_ext ht) hl]
    rfl

lemma suffix_split {t pre rest : List Char} (h : t <:+ pre ++ rest) :
    t <:+ rest ∨ ∃ p1, p1 <:+ pre ∧ p1 ≠ [] ∧ t = p1 ++ rest := by
  induction pre with
  | nil => exact Or.inl (by simpa using h)
  | cons c pre ih =>
    have h' : t <:+ c :: (pre ++ rest) := h
    rcases List.suffix_cons_iff.mp h' with he | hs
    · exact Or.inr ⟨c :: pre, List.suffix_refl _, by simp, he⟩
    · rcases ih hs with h1 | ⟨p1, hp1, hp2, hp3⟩
      · exact Or.inl h1
      · exact Or.inr ⟨p1, hp1.trans (List.suffix_cons c pre), hp2, hp3⟩

lemma tryHl_one (c : Char) : tryHl [c] = none := rfl

lemma tryHl_head_ne {c : Char} (hc : c ≠ '=') : ∀ (u : List Char), tryHl (c :: u) = none
  | [] => rfl
  | d :: u => by
    have hcd : ¬(c = '=' ∧ d = '=') := fun hh => hc hh.1
    simp [tryHl, hcd]

lemma tryHl_snd_ne {c d : Char} (hd : d ≠ '=') (u : List Char) : tryHl (c :: d :: u) = none := by
  have hcd : ¬(c = '=' ∧ d = '=') := fun hh => hd hh.2
  simp [tryHl, hcd]

lemma findSub_eqeq_none {l : List Char} (h : '=' ∉ l) : findSub ("==".data) l = none := by
  apply findSub_none_of
  intro t ht
  cases t with
  | nil => decide
  | cons c w =>
    refine isPrefixOf_false_of_head '=' (by decide) fun he => h ?_
    rw [he]
    exact ht.subset (List.mem_cons_self c w)

lemma tryHl_open_none {u : List Char}
    (h : findSub ("==".data) (u.takeWhile (· ≠ '\n')) = none) :
    tryHl ('=' :: '=' :: u) = none := by
  have e : ("==".data : List Char) = ['=', '='] := rfl
  rw [e] at h
  simp only [ne_eq, decide_not] at h
  simp [tryHl, h]

lemma suffix_pair {p : List Char} {a b : Char} (h : p <:+ [a, b]) :
    p = [] ∨ p = [b] ∨ p = [a, b] := by
  rcases List.suffix_cons_iff.mp h with h1 | h2
  · exact Or.inr (Or.inr h1)
  · rcases List.suffix_cons_iff.mp h2 with h3 | h4
    · exact Or.inr (Or.inl h3)
    · rw [List.suffix_nil] at h4
      exact Or.inl h4

lemma tryHl_none_of_mem {l : List Char} (hl : '=' ∉ l) :
    ∀ t, t <:+ l → tryHl t = none := by
  intro t ht
  cases t with
  | nil => rfl
  | cons c w =>
    have hc : c ≠ '=' := by
      intro hc
      exact hl (hc ▸ ht.subset (List.mem_cons_self c w))
    exact tryHl_head_ne hc w

/-- Claim C10: the highlight rule only fires when the opening and closing
`==` lie on the same line.  For an occurrence `==text==` whose inner text
contains a newline (with no further `=` characters around to pair with),
the highlight pass leaves the whole text unchanged: no span element is
produced. -/
theorem claim_C10 (pre text post : List Char)
    (hnl : '\n' ∈ text) (hpre : '=' ∉ pre) (htext : '=' ∉ text) (hpost : '=' ∉ post) :
    scanP tryHl (pre ++ ("==".data ++ (text ++ ("==".data ++ post)))).length
        (pre ++ ("==".data ++ (text ++ ("==".data ++ post)))) =
      pre ++ ("==".data ++ (text ++ ("==".data ++ post))) := by
  obtain ⟨tc, text', rfl⟩ : ∃ tc text', text = tc :: text' := by
    cases text with
    | nil => cases hnl
    | cons a b => exact ⟨a, b, rfl⟩
  have htc : tc ≠ '=' := fun h => htext (h ▸ List.mem_cons_self tc text')
  have e : ("==".data : List Char) = ['=', '='] := rfl
  have hopen1 : tryHl ('=' :: '=' :: ((tc :: text') ++ ("==".data ++ post))) = none := by
    apply tryHl_open_none
    have hdw : (tc :: text').dropWhile (· ≠ '\n') ≠ [] := by
      rw [Ne, List.dropWhile_eq_nil_iff]
      intro hall
      have := hall '\n' hnl
      simp at this
    rw [tw_append_ne _ hdw]
    refine findSub_eqeq_none fun hmem => htext ?_
    exact (List.takeWhile_sublist _).subset hmem
  have hopen2 : tryHl ('=' :: '=' :: post) = none := by
    apply tryHl_open_none
    refine findSub_eqeq_none fun hmem => hpost ?_
    exact (List.takeWhile_sublist _).subset hmem
  have hsnd1 : tryHl ('=' :: ((tc :: text') ++ ("==".data ++ post))) = none :=
    tryHl_snd_ne htc _
  have hsnd2 : tryHl ('=' :: post) = none := by
    cases post with
    | nil => exact tryHl_one '='
    | cons c w =>
      have hc : c ≠ '=' := fun h => hpost (h ▸ List.mem_cons_self c w)
      exact tryHl_snd_ne hc w
  -- every suffix of the whole text fails to match, so the pass is the identity
  apply scanP_id
  intro t ht
  rcases suffix_split ht with ht1 | ⟨p1, hp1, hne1, rfl⟩
  · rcases suffix_split ht1 with ht2 | ⟨p2, hp2, hne2, rfl⟩
    · rcases suffix_split ht2 with ht3 | ⟨p3, hp3, hne3, rfl⟩
      · rcases suffix_split ht3 with ht4 | ⟨p4, hp4, hne4, rfl⟩
        · exact tryHl_none_of_mem hpost t ht4
        · rw [e] at hp4
          rcases suffix_pair hp4 with rfl | rfl | rfl
          · exact absurd rfl hne4
          · exact hsnd2
          · exact hopen2
      · cases p3 with
        | nil => exact absurd rfl hne3
        | cons c p3' =>
          have hc : c ≠ '=' := fun h => htext (h ▸ hp3.subset (List.mem_cons_self c p3'))
          exact tryHl_head_ne hc _
    · rw [e] at hp2
      rcases suffix_pair hp2 with rfl | rfl | rfl
      · exact absurd rfl hne2
      · exact hsnd1
      · exact hopen1
  · cases p1 with
    | nil => exact absurd rfl hne1
    | cons c p1' =>
      have hc : c ≠ '=' := fun h => hpre (h ▸ hp1.subset (List.mem_cons_self c p1'))
      exact tryHl_head_ne hc _

/-- Claim C10 witness: `==a\nb==` is left unchanged by the highlight
pass. -/
theorem claim_C10_witness :
    scanP tryHl ("x ".data ++ ("==".data ++ ("a\nb".data ++ ("==".data ++ " y".data)))).length
        ("x ".data ++ ("==".data ++ ("a\nb".data ++ ("==".data ++ " y".data)))) =
      "x ".data ++ ("==".data ++ ("a\nb".data ++ ("==".data ++ " y".data))) :=
  claim_C10 _ _ _ (by decide) (by decide) (by decide) (by decide)

/-- Claim C8: `get_youtube_embed_code` returns embed markup exactly when
the parsed url has a netloc containing `youtube.com` together with a
nonempty `v` query value, or else a netloc containing `youtu.be` with a
nonempty slash-stripped path; the returned markup is always the iframe
code built around the extracted video id, which occurs inside it; and a
watch-style url whose `v` parameter is missing or empty yields no embed
markup, as does an unrecognized host. -/
theorem claim_C8 :
    (∀ url : List Char, (resolveEmbed url).isSome = true ↔
      ((hasSub ("youtube.com".data) (urlparseP url).netloc = true ∧
        ∃ v, getV (urlparseP url).query = some v ∧ v ≠ []) ∨
       (hasSub ("youtube.com".data) (urlparseP url).netloc = false ∧
        hasSub ("youtu.be".data) (urlparseP url).netloc = true ∧
        (urlparseP url).path.dropWhile (· = '/') ≠ []))) ∧
    (∀ url s : List Char, resolveEmbed url = some s →
      ∃ vid, vid ≠ [] ∧ s = embedCode vid ∧ vid <:+: s) ∧
    resolveEmbed ("https://www.youtube.com/watch".data) = none ∧
    resolveEmbed ("https://www.youtube.com/watch?v=".data) = none ∧
    resolveEmbed ("https://example.com/x".data) = none := by
  refine ⟨?_, ?_, by decide, by decide, by decide⟩
  · intro url
    simp only [resolveEmbed]
    by_cases h1 : hasSub ("youtube.com".data) (urlparseP url).netloc = true
    · cases hv : getV (urlparseP url).query with
      | none => simp [hv, h1]
      | some v =>
        cases v with
        | nil => simp [hv, h1]
        | cons a w =>
          simp [hv, h1]
    · rw [Bool.not_eq_true] at h1
      by_cases h2 : hasSub ("youtu.be".data) (urlparseP url).netloc = true
      · cases hp : (urlparseP url).path.dropWhile (· = '/') with
        | nil => simp [h1, h2, hp]
        | cons a w => simp [h1, h2, hp]
      · rw [Bool.not_eq_true] at h2
        simp [h1, h2]
  · have mk : ∀ (a : Char) (w s : List Char), embedCode (a :: w) = s →
        ∃ vid, vid ≠ [] ∧ s = embedCode vid ∧ vid <:+: s := by
      intro a w s h
      refine ⟨a :: w, by simp, h.symm, ?_⟩
      rw [← h]
      exact ⟨"<iframe width=\"560\" height=\"315\" src=\"https://www.youtube.com/embed/".data,
        "\" frameborder=\"0\" allowfullscreen></iframe>".data, rfl⟩
    intro url s h
    simp only [resolveEmbed] at h
    by_cases h1 : hasSub ("youtube.com".data) (urlparseP url).netloc = true
    · rw [if_pos h1] at h
      cases hv : getV (urlparseP url).query with
      | none => rw [hv] at h; cases h
      | some v =>
        rw [hv] at h
        cases v with
        | nil => simp at h
        | cons a w =>
          simp only [List.isEmpty_cons, Bool.false_eq_true, if_false, Option.some.injEq] at h
          exact mk a w s h
    · rw [if_neg h1] at h
      by_cases h2 : hasSub ("youtu.be".data) (urlparseP url).netloc = true
      · rw [if_pos h2] at h
        cases hp : (urlparseP url).path.dropWhile (· = '/') with
        | nil => rw [hp] at h; simp at h
        | cons a w =>
          rw [hp] at h
          simp only [List.isEmpty_cons, Bool.false_eq_true, if_false, Option.some.injEq] at h
          exact mk a w s h
      · rw [if_neg h2] at h
        cases h

/-- Claim C8 witness: the two recognition branches and rejection, at
concrete urls. -/
theorem claim_C8_witness :
    (resolveEmbed ("https://www.youtube.com/watch?v=abc123".data)).isSome = true ∧
    (resolveEmbed ("https://youtu.be/abc123".data)).isSome = true ∧
    (∃ vid, vid ≠ [] ∧
      embedCode ("abc123".data) = embedCode vid ∧ vid <:+: embedCode ("abc123".data)) := by
  refine ⟨?_, ?_, ?_⟩
  · exact (claim_C8.1 ("https://www.youtube.com/watch?v=abc123".data)).mpr
      (Or.inl ⟨by decide, "abc123".data, by decide, by decide⟩)
  · exact (claim_C8.1 ("https://youtu.be/abc123".data)).mpr
      (Or.inr ⟨by decide, by decide, by decide⟩)
  · exact claim_C8.2.1 ("https://youtu.be/abc123".data) _ (by decide)

/-- Claim C9, counterexample.  The claim says a document is excluded
exactly when some configured exclusion key is set to a true-valued
string.  The search on line 241 interpolates the key into an unanchored
pattern, so a key that appears as a suffix of a different key also
triggers exclusion: with exclusion key `private`, a document whose
front-matter sets only `notprivate: true` is excluded by the code,
although no configured key is set (the specification-side reading
`specExcluded` rejects it). -/
theorem claim_C9_counterexample :
    shouldExcludeFile ["private".data] ("---\nnotprivate: true\n---\nbody\n".data) = true ∧
    specExcluded ["private".data] ("---\nnotprivate: true\n---\nbody\n".data) = false :=
  ⟨by decide, by decide⟩

/-- Claim C9 as amended: a document is excluded exactly when the
configured exclusion-key set is nonempty, the document begins with a
`---`-delimited front-matter block, and the pattern
`key\s*:\s*(true|yes|y|on|1)\s*($|\n)` matches case-insensitively at
some position of the block for some configured key — the key occurrence
need not start a line or stand alone, so a configured key that is a
suffix of another key also triggers exclusion.  A document with no
front-matter, or an empty exclusion-key set, is never excluded. -/
theorem claim_C9_amended :
    (∀ (props : List (List Char)) (content : List Char),
      shouldExcludeFile props content = true ↔
        (props ≠ [] ∧ ∃ fm, matchFrontmatter content = some fm ∧
          ∃ p ∈ props, searchTruthy p fm = true)) ∧
    (∀ (props : List (List Char)) (content : List Char),
      matchFrontmatter content = none → shouldExcludeFile props content = false) ∧
    (∀ content : List Char, shouldExcludeFile [] content = false) := by
  refine ⟨?_, ?_, ?_⟩
  · intro props content
    simp only [shouldExcludeFile]
    by_cases hp : props.isEmpty = true
    · have hp' : props = [] := List.isEmpty_iff.mp hp
      simp [hp, hp']
    · have hp' : props ≠ [] := fun h => hp (List.isEmpty_iff.mpr h)
      cases hm : matchFrontmatter content with
      | none => simp [hp, hm]
      | some fm => simp [hp, hm, List.any_eq_true, hp']
  · intro props content hm
    simp only [shouldExcludeFile, hm]
    by_cases hp : props.isEmpty = true
    · simp [hp]
    · simp [hp]
  · intro content
    rfl

/-- Claim C9 witness: a front-matter block that sets a configured key
(case-insensitively, with trailing blanks) is excluded, and a document
with no front-matter block is not. -/
theorem claim_C9_witness :
    shouldExcludeFile ["private".data] ("---\nprivate: TRUE  \nother: x\n---\nbody\n".data) = true ∧
    shouldExcludeFile ["private".data] ("no front matter private: true\n".data) = false :=
  ⟨(claim_C9_amended.1 _ _).mpr
      ⟨by decide, "private: TRUE  \nother: x".data, by decide, "private".data, by decide, by decide⟩,
    claim_C9_amended.2.1 _ _ (by decide)⟩

end ObsidianToHtml
